import Mathlib

/-!
Verification development for the playlist-from-web track-matching engine
(`src/app/spotify_client.py` and `src/app/pipeline.py`).

Python strings are modelled as lists of Unicode code points (`PyStr`).
External library functions that the source calls (`unicodedata.normalize`,
`unicodedata.combining`, `str.lower`, `str.strip`/regex `\s`,
`difflib.SequenceMatcher.ratio`) are parameters of the embedding: the
theorems quantify over them, constrained only by facts of Unicode where a
proof needs them.
-/

/-- A Python string, as its list of Unicode code points. -/
def PyStr : Type := List Nat

instance : DecidableEq PyStr := by
  unfold PyStr
  infer_instance

instance : Append PyStr := ⟨fun a b => List.append a b⟩

instance : Membership Nat PyStr := ⟨fun l c => List.Mem c l⟩

/-- Convert a Lean string literal to a `PyStr` (its code points). -/
def pyStr (s : String) : PyStr := s.data.map Char.toNat

/-- The character class `[a-z0-9]` of the normalizer's regex in
`SpotifyClient._normalize` (`spotify_client.py` line 79). -/
def isKeep (c : Nat) : Bool := (97 ≤ c && c ≤ 122) || (48 ≤ c && c ≤ 57)

/-- A code point that can appear in the output of `_normalize`:
an `[a-z0-9]` character or the space (32). -/
def canon (c : Nat) : Bool := isKeep c || c == 32

/-- Python's `str.strip()`: drop characters satisfying `w` from both ends. -/
def stripBy (w : Nat → Bool) (s : List Nat) : List Nat :=
  ((s.dropWhile w).reverse.dropWhile w).reverse

/-- Helper for `collapseRunsBy`: the Boolean records whether the previous
character belonged to a `w`-run whose replacement space was already
emitted. -/
def collapseAux (w : Nat → Bool) : Bool → List Nat → List Nat
  | _, [] => []
  | inRun, c :: rest =>
    if w c then
      if inRun then collapseAux w true rest
      else 32 :: collapseAux w true rest
    else c :: collapseAux w false rest

/-- `re.sub` of a pattern matching maximal runs of characters satisfying `w`
with a single space: each maximal `w`-run is replaced by the code point 32.
This models both `re.sub(r"[^a-z0-9]+", " ", ·)` (with `w c = !isKeep c`)
and `re.sub(r"\s+", " ", ·)` (with `w` the whitespace class). -/
def collapseRunsBy (w : Nat → Bool) (l : List Nat) : List Nat :=
  collapseAux w false l

/-- The Unicode-dependent primitives used by the source, as parameters:
`nfkd` is `unicodedata.normalize("NFKD", ·)`, `combining c ≠ 0` is
`unicodedata.combining`, `toLower` is per-character `str.lower` (which may
expand a character), `isWhite` is the whitespace class used by
`str.strip()` and the regex `\s`. -/
structure UModel where
  nfkd : List Nat → List Nat
  combining : Nat → Bool
  toLower : Nat → List Nat
  isWhite : Nat → Bool

/-- Python's `s.lower()` on a whole string. -/
def pyLower (U : UModel) (s : List Nat) : List Nat :=
  (s.map U.toLower).flatten

/-- `SpotifyClient._normalize` (`spotify_client.py` lines 75-80):
NFKD-decompose, strip combining marks, lowercase, strip, collapse
non-`[a-z0-9]` runs to single spaces, collapse whitespace runs, strip. -/
def pyNormalize (U : UModel) (s : PyStr) : PyStr :=
  let d := U.nfkd s
  let f := d.filter (fun c => !U.combining c)
  let lo := pyLower U f
  let st := stripBy U.isWhite lo
  let s1 := collapseRunsBy (fun c => !isKeep c) st
  let s2 := collapseRunsBy U.isWhite s1
  stripBy U.isWhite s2

/-- The Unicode facts about ASCII that the idempotence proof relies on:
NFKD fixes strings of `[a-z0-9 ]` characters, none of them is combining,
each lowercases to itself, the space is whitespace and `[a-z0-9]` is not. -/
structure AsciiFaithful (U : UModel) : Prop where
  nfkd_fixed : ∀ l : List Nat, (∀ c ∈ l, canon c) → U.nfkd l = l
  combining_canon : ∀ c, canon c → U.combining c = false
  lower_canon : ∀ c, canon c → U.toLower c = [c]
  white_space : U.isWhite 32 = true
  white_keep : ∀ c, isKeep c → U.isWhite c = false

/-- A concrete Unicode model (identity decomposition, no combining marks,
identity lowercasing, space-only whitespace), used to instantiate theorems
on concrete inputs. -/
def asciiU : UModel where
  nfkd := fun l => l
  combining := fun _ => false
  toLower := fun c => [c]
  isWhite := fun c => c == 32

theorem asciiU_faithful : AsciiFaithful asciiU := by
  constructor
  · intro l _; rfl
  · intro c _; rfl
  · intro c _; rfl
  · rfl
  · intro c hc
    simp only [asciiU, isKeep] at *
    rcases Bool.or_eq_true_iff.mp hc with h | h <;>
      · simp only [Bool.and_eq_true, decide_eq_true_eq] at h
        simp only [beq_eq_false_iff_ne, ne_eq]
        omega

/-! ### Idempotence of the normalizer (C5) -/

/-- No two adjacent characters of `l` both satisfy `w`. -/
def SepRuns (w : Nat → Bool) (l : List Nat) : Prop :=
  l.Chain' (fun a b => ¬(w a = true ∧ w b = true))

/-- The first character of `l`, if any, does not satisfy `w`. -/
def FirstOk (w : Nat → Bool) (l : List Nat) : Prop := ∀ c ∈ l.head?, w c = false

/-- The last character of `l`, if any, does not satisfy `w`. -/
def LastOk (w : Nat → Bool) (l : List Nat) : Prop := ∀ c ∈ l.getLast?, w c = false

theorem dropWhile_head_false {w : Nat → Bool} :
    ∀ (l : List Nat) (c : Nat), (l.dropWhile w).head? = some c → w c = false := by
  intro l
  induction l with
  | nil => intro c hc; simp [List.dropWhile] at hc
  | cons a r ih =>
    intro c hc
    by_cases ha : w a
    · rw [List.dropWhile_cons_of_pos ha] at hc
      exact ih c hc
    · rw [List.dropWhile_cons_of_neg ha] at hc
      simp only [List.head?_cons, Option.some.injEq] at hc
      subst hc
      exact Bool.not_eq_true _ ▸ (by simpa using ha)

theorem dropWhile_eq_self_of_firstOk {w : Nat → Bool} {l : List Nat}
    (h : FirstOk w l) : l.dropWhile w = l := by
  cases l with
  | nil => rfl
  | cons a r =>
    have ha : w a = false := h a (by simp)
    exact List.dropWhile_cons_of_neg (by simp [ha])

theorem mem_collapseAux {w : Nat → Bool} :
    ∀ (l : List Nat) (b : Bool), ∀ c ∈ collapseAux w b l, c = 32 ∨ (c ∈ l ∧ w c = false) := by
  intro l
  induction l with
  | nil => intro b c hc; simp [collapseAux] at hc
  | cons a r ih =>
    intro b c hc
    by_cases ha : w a
    · cases b with
      | true =>
        rw [collapseAux, if_pos ha, if_pos rfl] at hc
        rcases ih true c hc with h | ⟨hm, hw⟩
        · exact Or.inl h
        · exact Or.inr ⟨List.mem_cons_of_mem _ hm, hw⟩
      | false =>
        rw [collapseAux, if_pos ha, if_neg (by simp)] at hc
        rcases List.mem_cons.mp hc with h | h
        · exact Or.inl h
        · rcases ih true c h with h' | ⟨hm, hw⟩
          · exact Or.inl h'
          · exact Or.inr ⟨List.mem_cons_of_mem _ hm, hw⟩
    · rw [collapseAux, if_neg ha] at hc
      rcases List.mem_cons.mp hc with h | h
      · subst h
        exact Or.inr ⟨List.mem_cons_self _ _, by simpa using ha⟩
      · rcases ih false c h with h' | ⟨hm, hw⟩
        · exact Or.inl h'
        · exact Or.inr ⟨List.mem_cons_of_mem _ hm, hw⟩

theorem mem_collapseRunsBy {w : Nat → Bool} {l : List Nat} :
    ∀ c ∈ collapseRunsBy w l, c = 32 ∨ (c ∈ l ∧ w c = false) :=
  fun c hc => mem_collapseAux l false c hc

theorem head_collapseAux_true {w : Nat → Bool} :
    ∀ (l : List Nat) (c : Nat), (collapseAux w true l).head? = some c → w c = false := by
  intro l
  induction l with
  | nil => intro c hc; simp [collapseAux] at hc
  | cons a r ih =>
    intro c hc
    by_cases ha : w a
    · rw [collapseAux, if_pos ha, if_pos rfl] at hc
      exact ih c hc
    · rw [collapseAux, if_neg ha] at hc
      simp only [List.head?_cons, Option.some.injEq] at hc
      subst hc
      simpa using ha

theorem sepRuns_collapseAux (w : Nat → Bool) :
    ∀ (l : List Nat) (b : Bool), SepRuns w (collapseAux w b l) := by
  intro l
  induction l with
  | nil => intro b; simp [collapseAux, SepRuns]
  | cons a r ih =>
    intro b
    by_cases ha : w a
    · cases b with
      | true =>
        rw [collapseAux, if_pos ha, if_pos rfl]
        exact ih true
      | false =>
        rw [SepRuns, collapseAux, if_pos ha, if_neg (by simp), List.chain'_cons']
        refine ⟨fun y hy => ?_, ih true⟩
        have : w y = false := head_collapseAux_true r y hy
        simp [this]
    · rw [SepRuns, collapseAux, if_neg ha, List.chain'_cons']
      refine ⟨fun y hy => ?_, ih false⟩
      simp [show w a = false by simpa using ha]

theorem sepRuns_collapseRunsBy (w : Nat → Bool) (l : List Nat) :
    SepRuns w (collapseRunsBy w l) :=
  sepRuns_collapseAux w l false

theorem collapseAux_eq_self {w : Nat → Bool} :
    ∀ l : List Nat, (∀ c ∈ l, w c = true → c = 32) → SepRuns w l →
      collapseAux w false l = l ∧ (FirstOk w l → collapseAux w true l = l) := by
  intro l
  induction l with
  | nil => intro _ _; exact ⟨rfl, fun _ => rfl⟩
  | cons a r ih =>
    intro hall hsep
    rw [SepRuns, List.chain'_cons'] at hsep
    have ihr := ih (fun c hc h => hall c (List.mem_cons_of_mem _ hc) h) hsep.2
    by_cases ha : w a
    · have ha32 : a = 32 := hall a (List.mem_cons_self _ _) ha
      have hfr : FirstOk w r := by
        intro y hy
        have := hsep.1 y hy
        by_contra hne
        simp only [Bool.not_eq_false] at hne
        exact this ⟨ha, hne⟩
      constructor
      · rw [collapseAux, if_pos ha, if_neg (by simp), ihr.2 hfr, ha32]
      · intro hf
        have h0 : w a = false := hf a (by simp)
        rw [h0] at ha
        exact absurd ha (by simp)
    · constructor
      · rw [collapseAux, if_neg ha, ihr.1]
      · intro _
        rw [collapseAux, if_neg ha, ihr.1]

theorem collapseRunsBy_eq_self {w : Nat → Bool} :
    ∀ l : List Nat, (∀ c ∈ l, w c = true → c = 32) → SepRuns w l →
      collapseRunsBy w l = l := by
  intro l hall hsep
  exact (collapseAux_eq_self l hall hsep).1

theorem mem_stripBy {w : Nat → Bool} {l : List Nat} {c : Nat}
    (hc : c ∈ stripBy w l) : c ∈ l := by
  unfold stripBy at hc
  rw [List.mem_reverse] at hc
  have h1 := List.dropWhile_subset (l := (l.dropWhile w).reverse) w hc
  rw [List.mem_reverse] at h1
  exact List.dropWhile_subset w h1

theorem sepRuns_stripBy {w : Nat → Bool} {l : List Nat}
    (h : SepRuns w l) : SepRuns w (stripBy w l) := by
  unfold stripBy
  have h1 : SepRuns w (l.dropWhile w) := h.suffix (List.dropWhile_suffix w)
  have h2 : SepRuns w (l.dropWhile w).reverse := by
    rw [SepRuns, List.chain'_reverse]
    exact h1.imp (fun a b hab ⟨x, y⟩ => hab ⟨y, x⟩)
  have h3 : SepRuns w ((l.dropWhile w).reverse.dropWhile w) :=
    h2.suffix (List.dropWhile_suffix w)
  rw [SepRuns, List.chain'_reverse]
  exact h3.imp (fun a b hab ⟨x, y⟩ => hab ⟨y, x⟩)

theorem firstOk_stripBy (w : Nat → Bool) (l : List Nat) : FirstOk w (stripBy w l) := by
  intro c hc
  unfold stripBy at hc
  obtain ⟨t, ht⟩ : ((l.dropWhile w).reverse.dropWhile w).reverse <+: l.dropWhile w := by
    have := List.reverse_prefix.mpr (List.dropWhile_suffix (l := (l.dropWhile w).reverse) w)
    rwa [List.reverse_reverse] at this
  cases hB : ((l.dropWhile w).reverse.dropWhile w).reverse with
  | nil => rw [hB] at hc; simp at hc
  | cons a r =>
    rw [hB] at hc ht
    simp only [List.head?_cons, Option.mem_def, Option.some.injEq] at hc
    subst hc
    exact dropWhile_head_false l a (by rw [← ht]; rfl)

theorem lastOk_stripBy (w : Nat → Bool) (l : List Nat) : LastOk w (stripBy w l) := by
  intro c hc
  unfold stripBy at hc
  rw [List.getLast?_reverse] at hc
  exact dropWhile_head_false (l.dropWhile w).reverse c hc

theorem stripBy_eq_self {w : Nat → Bool} {l : List Nat}
    (h1 : FirstOk w l) (h2 : LastOk w l) : stripBy w l = l := by
  unfold stripBy
  rw [dropWhile_eq_self_of_firstOk h1, dropWhile_eq_self_of_firstOk
    (by intro c hc; rw [List.head?_reverse] at hc; exact h2 c hc), List.reverse_reverse]

theorem chain'_imp_mem {R S : Nat → Nat → Prop} :
    ∀ {l : List Nat}, l.Chain' R → (∀ a ∈ l, ∀ b ∈ l, R a b → S a b) → l.Chain' S := by
  intro l
  induction l with
  | nil => intro _ _; simp
  | cons a t ih =>
    intro h himp
    rw [List.chain'_cons'] at h ⊢
    refine ⟨fun y hy => himp a (List.mem_cons_self _ _) y
      (List.mem_cons_of_mem _ (List.mem_of_mem_head? hy)) (h.1 y hy), ?_⟩
    exact ih h.2 (fun x hx y hy => himp x (List.mem_cons_of_mem _ hx) y (List.mem_cons_of_mem _ hy))

theorem canon_of_not_keep {c : Nat} (h : canon c) (h2 : isKeep c = false) : c = 32 := by
  rw [canon, h2, Bool.false_or, Nat.beq_eq_true_eq] at h
  exact h

theorem white_eq_32 {U : UModel} (hU : AsciiFaithful U) {c : Nat}
    (hc : canon c) (hw : U.isWhite c = true) : c = 32 := by
  by_cases hk : isKeep c
  · rw [hU.white_keep c hk] at hw
    exact absurd hw (by simp)
  · exact canon_of_not_keep hc (by simpa using hk)

theorem pyLower_canon {U : UModel} (hU : AsciiFaithful U) :
    ∀ l : List Nat, (∀ c ∈ l, canon c) → pyLower U l = l := by
  intro l
  induction l with
  | nil => intro _; rfl
  | cons a t ih =>
    intro hall
    rw [pyLower, List.map_cons, List.flatten_cons,
      hU.lower_canon a (hall a (List.mem_cons_self _ _)),
      show (List.map U.toLower t).flatten = pyLower U t from rfl,
      ih (fun c hc => hall c (List.mem_cons_of_mem _ hc))]
    rfl

/-- On a string already in normal form (only `[a-z0-9 ]` characters, no two
adjacent whitespace characters, no leading or trailing whitespace), every
stage of `_normalize` is the identity. -/
theorem pyNormalize_eq_self {U : UModel} (hU : AsciiFaithful U) (l : PyStr)
    (hall : ∀ c ∈ l, canon c) (hsep : SepRuns U.isWhite l)
    (hf : FirstOk U.isWhite l) (hl : LastOk U.isWhite l) :
    pyNormalize U l = l := by
  have hsep1 : SepRuns (fun c => !isKeep c) l := by
    refine chain'_imp_mem hsep ?_
    intro a ha b hb hab hcon
    simp only [Bool.not_eq_true'] at hcon
    have ha32 : a = 32 := canon_of_not_keep (hall a ha) hcon.1
    have hb32 : b = 32 := canon_of_not_keep (hall b hb) hcon.2
    exact hab ⟨ha32 ▸ hU.white_space, hb32 ▸ hU.white_space⟩
  have hfix1 : collapseRunsBy (fun c => !isKeep c) l = l := by
    refine collapseRunsBy_eq_self l ?_ hsep1
    intro c hc h
    simp only [Bool.not_eq_true'] at h
    exact canon_of_not_keep (hall c hc) h
  have hfix2 : collapseRunsBy U.isWhite l = l := by
    refine collapseRunsBy_eq_self l ?_ hsep
    intro c hc h
    exact white_eq_32 hU (hall c hc) h
  show stripBy U.isWhite (collapseRunsBy U.isWhite (collapseRunsBy (fun c => !isKeep c)
    (stripBy U.isWhite (pyLower U ((U.nfkd l).filter (fun c => !U.combining c)))))) = l
  rw [hU.nfkd_fixed l hall,
    List.filter_eq_self.mpr (fun a ha => by rw [hU.combining_canon a (hall a ha)]; rfl),
    pyLower_canon hU l hall, stripBy_eq_self hf hl, hfix1, hfix2, stripBy_eq_self hf hl]

/-- The output of `_normalize` is in normal form. -/
theorem pyNormalize_shape {U : UModel} (_hU : AsciiFaithful U) (s : PyStr) :
    (∀ c ∈ pyNormalize U s, canon c) ∧ SepRuns U.isWhite (pyNormalize U s) ∧
      FirstOk U.isWhite (pyNormalize U s) ∧ LastOk U.isWhite (pyNormalize U s) := by
  have hshow : pyNormalize U s = stripBy U.isWhite (collapseRunsBy U.isWhite
      (collapseRunsBy (fun c => !isKeep c)
        (stripBy U.isWhite (pyLower U ((U.nfkd s).filter (fun c => !U.combining c)))))) := rfl
  refine ⟨?_, ?_, ?_, ?_⟩
  · intro c hc
    rw [hshow] at hc
    have h2 := mem_stripBy hc
    rcases mem_collapseRunsBy _ h2 with h32 | ⟨h3, _⟩
    · rw [canon, h32]; rfl
    · rcases mem_collapseRunsBy _ h3 with h32 | ⟨_, hk⟩
      · rw [canon, h32]; rfl
      · have hk' : isKeep c = true := by simpa using hk
        rw [canon, hk']; rfl
  · rw [hshow]
    exact sepRuns_stripBy (sepRuns_collapseRunsBy _ _)
  · rw [hshow]
    exact firstOk_stripBy _ _
  · rw [hshow]
    exact lastOk_stripBy _ _

/-- C5 (confirmed): the text normalizer `SpotifyClient._normalize` is
idempotent: for every string `s`, `normalize(normalize(s)) = normalize(s)`,
for every Unicode model that is faithful to the ASCII facts
(`NFKD` fixes `[a-z0-9 ]` strings, those characters are non-combining,
lowercase to themselves, and exactly the space among them is whitespace). -/
theorem normalize_idempotent (U : UModel) (hU : AsciiFaithful U) (s : PyStr) :
    pyNormalize U (pyNormalize U s) = pyNormalize U s := by
  obtain ⟨hall, hsep, hf, hl⟩ := pyNormalize_shape hU s
  exact pyNormalize_eq_self hU _ hall hsep hf hl

/-- Witness for C5 at a concrete Unicode model and a concrete string. -/
theorem normalize_idempotent_witness :
    pyNormalize asciiU (pyNormalize asciiU (pyStr "  Hello,  World!! 42 ")) =
      pyNormalize asciiU (pyStr "  Hello,  World!! 42 ") :=
  normalize_idempotent asciiU asciiU_faithful (pyStr "  Hello,  World!! 42 ")

/-! ### The match selector `_best_match` (C1, C2) -/

/-- A search-result item as `_best_match` reads it: the track's display
name, its artist names, and the `uri`/`external_urls.spotify` fields used
by the mapper. -/
structure CandItem where
  name : PyStr
  artists : List PyStr
  uri : PyStr
  url : PyStr
deriving DecidableEq

/-- Python's `max(xs, default=d)`. -/
def pyMax (l : List ℚ) (d : ℚ) : ℚ :=
  match l with
  | [] => d
  | x :: xs => xs.foldl max x

/-- The exact-hit test of `_best_match` (`spotify_client.py` line 92):
the normalized candidate title equals the target title and the target
artist is among the normalized candidate artist names. -/
def isExactHit (U : UModel) (item : CandItem) (ta tt : PyStr) : Bool :=
  decide (tt = pyNormalize U item.name) && decide (ta ∈ item.artists.map (pyNormalize U))

/-- The weighted similarity score of `_best_match` (lines 94-99):
`0.6 * title_ratio + 0.4 * artist_ratio`, the artist ratio being the
maximum similarity over the candidate's normalized artist names (`0.0`
when there are none). `ratio` stands for the external
`difflib.SequenceMatcher(None, a, b).ratio()`. -/
def scoreOf (U : UModel) (ratio : PyStr → PyStr → ℚ) (ta tt : PyStr) (item : CandItem) : ℚ :=
  3/5 * ratio tt (pyNormalize U item.name)
    + 2/5 * pyMax ((item.artists.map (pyNormalize U)).map (fun ca => ratio ta ca)) 0

/-- The candidate loop of `_best_match` (lines 89-102), carrying the
running best candidate and best score. -/
def bmGo (U : UModel) (ratio : PyStr → PyStr → ℚ) (ta tt : PyStr) :
    List CandItem → Option CandItem → ℚ → Option CandItem
  | [], best, bestScore => if bestScore < 1/2 then none else best
  | item :: rest, best, bestScore =>
    if isExactHit U item ta tt then some item
    else
      if bestScore < scoreOf U ratio ta tt item then
        bmGo U ratio ta tt rest (some item) (scoreOf U ratio ta tt item)
      else bmGo U ratio ta tt rest best bestScore

/-- `SpotifyClient._best_match` (`spotify_client.py` lines 82-105). -/
def bestMatch (U : UModel) (ratio : PyStr → PyStr → ℚ)
    (items : List CandItem) (ta tt : PyStr) : Option CandItem :=
  if items.isEmpty then none else bmGo U ratio ta tt items none 0

theorem bmGo_exact {U : UModel} {ratio : PyStr → PyStr → ℚ} {ta tt : PyStr} :
    ∀ (items : List CandItem) (j : ℕ) (hj : j < items.length)
      (best : Option CandItem) (bs : ℚ),
      isExactHit U (items.get ⟨j, hj⟩) ta tt = true →
      (∀ k (hk : k < j), isExactHit U (items.get ⟨k, Nat.lt_trans hk hj⟩) ta tt = false) →
      bmGo U ratio ta tt items best bs = some (items.get ⟨j, hj⟩) := by
  intro items
  induction items with
  | nil => intro j hj; exact absurd hj (by simp)
  | cons it rest ih =>
    intro j hj best bs hex hfirst
    cases j with
    | zero =>
      have hex' : isExactHit U it ta tt = true := hex
      rw [bmGo, if_pos hex']
      rfl
    | succ j' =>
      have h0 : isExactHit U it ta tt = false := hfirst 0 (Nat.succ_pos _)
      have hj' : j' < rest.length := Nat.lt_of_succ_lt_succ hj
      rw [bmGo, if_neg (by simp [h0])]
      by_cases hlt : bs < scoreOf U ratio ta tt it
      · rw [if_pos hlt]
        exact ih j' hj' _ _ hex (fun k hk => hfirst (k + 1) (Nat.succ_lt_succ hk))
      · rw [if_neg hlt]
        exact ih j' hj' _ _ hex (fun k hk => hfirst (k + 1) (Nat.succ_lt_succ hk))

/-- C1 (confirmed): if some candidate is an exact hit (normalized title
equal to the normalized target title, normalized target artist among the
candidate's normalized artist names), `_best_match` returns the first such
candidate in input order, whatever similarity ratios — and hence weighted
scores — any other candidates have, including earlier-seen ones. -/
theorem bestMatch_exact_short_circuit (U : UModel) (ratio : PyStr → PyStr → ℚ)
    (items : List CandItem) (ta tt : PyStr) (j : ℕ) (hj : j < items.length)
    (hexact : isExactHit U (items.get ⟨j, hj⟩) ta tt = true)
    (hfirst : ∀ k (hk : k < j), isExactHit U (items.get ⟨k, Nat.lt_trans hk hj⟩) ta tt = false) :
    bestMatch U ratio items ta tt = some (items.get ⟨j, hj⟩) := by
  have hne : items.isEmpty = false := by
    cases items
    · exact absurd hj (by simp)
    · rfl
  rw [bestMatch, if_neg (by simp [hne])]
  exact bmGo_exact items j hj none 0 hexact hfirst

/-- First witness item: a fuzzy candidate that is not an exact hit but
scores 1.0 under the constant ratio. -/
def witOther : CandItem :=
  ⟨pyStr "other song", [pyStr "other"], pyStr "spotify:track:other", pyStr "u1"⟩

/-- Second witness item: an exact hit for ("hugh masekela", "skokiaan"). -/
def witExact : CandItem :=
  ⟨pyStr "skokiaan", [pyStr "hugh masekela"], pyStr "spotify:track:skokiaan", pyStr "u2"⟩

/-- Witness for C1: the exact hit in second position wins even though the
earlier candidate has the maximal possible weighted score 1.0. -/
theorem bestMatch_exact_short_circuit_witness :
    bestMatch asciiU (fun _ _ => 1) [witOther, witExact]
      (pyStr "hugh masekela") (pyStr "skokiaan") =
      some ([witOther, witExact].get ⟨1, by decide⟩) := by
  refine bestMatch_exact_short_circuit asciiU (fun _ _ => 1) [witOther, witExact]
    (pyStr "hugh masekela") (pyStr "skokiaan") 1 (by decide) (by decide) ?_
  intro k hk
  have hk0 : k = 0 := by omega
  subst hk0
  show isExactHit asciiU ([witOther, witExact].get ⟨0, by decide⟩)
    (pyStr "hugh masekela") (pyStr "skokiaan") = false
  decide

theorem foldl_max_shift (a b : ℚ) : ∀ l : List ℚ,
    List.foldl max (max a b) l = max a (List.foldl max b l) := by
  intro l
  induction l generalizing b with
  | nil => rfl
  | cons x l ih => rw [List.foldl_cons, List.foldl_cons, max_assoc, ih]

theorem le_foldl_max (a : ℚ) : ∀ l : List ℚ, a ≤ List.foldl max a l := by
  intro l
  induction l generalizing a with
  | nil => exact le_refl a
  | cons x l ih => exact le_trans (le_max_left a x) (ih (max a x))

theorem bmGo_no_exact {U : UModel} {ratio : PyStr → PyStr → ℚ} {ta tt : PyStr} :
    ∀ (items : List CandItem) (best : Option CandItem) (bs : ℚ),
      (∀ it ∈ items, isExactHit U it ta tt = false) →
      bmGo U ratio ta tt items best bs =
        (if (items.map (scoreOf U ratio ta tt)).foldl max bs < 1/2 then none
         else if bs < (items.map (scoreOf U ratio ta tt)).foldl max bs then
           items.find? (fun it =>
             decide (scoreOf U ratio ta tt it = (items.map (scoreOf U ratio ta tt)).foldl max bs))
         else best) := by
  intro items
  induction items with
  | nil =>
    intro best bs _
    rw [bmGo]
    simp [lt_irrefl]
  | cons it rest ih =>
    intro best bs hnoex
    have h0 : isExactHit U it ta tt = false := hnoex it (List.mem_cons_self _ _)
    have hrest : ∀ x ∈ rest, isExactHit U x ta tt = false :=
      fun x hx => hnoex x (List.mem_cons_of_mem _ hx)
    rw [bmGo, if_neg (by simp [h0])]
    rw [List.map_cons, List.foldl_cons]
    by_cases hlt : bs < scoreOf U ratio ta tt it
    · rw [if_pos hlt, ih _ _ hrest]
      have hmax : max bs (scoreOf U ratio ta tt it) = scoreOf U ratio ta tt it :=
        max_eq_right (le_of_lt hlt)
      rw [hmax]
      set s := scoreOf U ratio ta tt it with hs
      set m := (rest.map (scoreOf U ratio ta tt)).foldl max s with hm
      have hsm : s ≤ m := le_foldl_max s _
      have hbm : bs < m := lt_of_lt_of_le hlt hsm
      by_cases hhalf : m < 1/2
      · rw [if_pos hhalf, if_pos hhalf]
      · rw [if_neg hhalf, if_neg hhalf, if_pos hbm]
        by_cases hseq : s = m
        · rw [List.find?_cons_of_pos _ (by simp [← hs, hseq]), if_neg (by rw [hseq]; exact lt_irrefl m)]
        · rw [List.find?_cons_of_neg _ (by simp [← hs, hseq]),
            if_pos (lt_of_le_of_ne hsm hseq)]
    · rw [if_neg hlt, ih _ _ hrest]
      have hsb : scoreOf U ratio ta tt it ≤ bs := le_of_not_lt hlt
      have hmax : max bs (scoreOf U ratio ta tt it) = bs := max_eq_left hsb
      rw [hmax]
      set m := (rest.map (scoreOf U ratio ta tt)).foldl max bs with hm
      have hbsm : bs ≤ m := le_foldl_max bs _
      by_cases hhalf : m < 1/2
      · rw [if_pos hhalf, if_pos hhalf]
      · rw [if_neg hhalf, if_neg hhalf]
        by_cases hbm : bs < m
        · have hne : ¬ scoreOf U ratio ta tt it = m := by
            intro he
            exact absurd (lt_of_le_of_lt (he ▸ hsb) hbm) (lt_irrefl m)
          rw [if_pos hbm, if_pos hbm, List.find?_cons_of_neg _ (by simp [hne])]
        · rw [if_neg hbm, if_neg hbm]

/-- C2 (confirmed): with no exact hit anywhere, `_best_match` returns
no-match on an empty candidate list; otherwise it returns the first-seen
candidate attaining the maximum weighted score (ties keep the earlier
candidate), and no-match exactly when that maximum is strictly below
0.5. -/
theorem bestMatch_no_exact (U : UModel) (ratio : PyStr → PyStr → ℚ)
    (items : List CandItem) (ta tt : PyStr)
    (hnoexact : ∀ it ∈ items, isExactHit U it ta tt = false) :
    bestMatch U ratio items ta tt =
      (if pyMax (items.map (scoreOf U ratio ta tt)) 0 < 1/2 then none
       else items.find? (fun it =>
         decide (scoreOf U ratio ta tt it = pyMax (items.map (scoreOf U ratio ta tt)) 0))) := by
  cases items with
  | nil =>
    have h0 : (0:ℚ) < 1/2 := by norm_num
    simp [bestMatch, pyMax, h0]
  | cons it rest =>
    rw [bestMatch, if_neg (by simp), bmGo_no_exact _ _ _ hnoexact,
      List.map_cons, List.foldl_cons, foldl_max_shift]
    have hpy : pyMax (scoreOf U ratio ta tt it :: rest.map (scoreOf U ratio ta tt)) 0 =
        List.foldl max (scoreOf U ratio ta tt it) (rest.map (scoreOf U ratio ta tt)) := rfl
    rw [hpy]
    set M := List.foldl max (scoreOf U ratio ta tt it) (rest.map (scoreOf U ratio ta tt)) with hM
    by_cases hhalf : M < 1/2
    · rw [if_pos (by
        rw [max_lt_iff]
        exact ⟨by norm_num, hhalf⟩), if_pos hhalf]
    · have hM0 : (0:ℚ) ≤ M := le_trans (by norm_num) (le_of_not_lt hhalf)
      have hmax : max 0 M = M := max_eq_right hM0
      rw [hmax, if_neg hhalf, if_neg hhalf,
        if_pos (lt_of_lt_of_le (by norm_num : (0:ℚ) < 1/2) (le_of_not_lt hhalf))]

/-- Witness for C2: two non-exact candidates under an equality-based
ratio; the selector picks the first candidate attaining the maximum. -/
theorem bestMatch_no_exact_witness :
    bestMatch asciiU (fun a b => if a = b then 1 else 0) [witOther, witExact]
      (pyStr "other") (pyStr "another song") =
      (if pyMax ([witOther, witExact].map (scoreOf asciiU
          (fun a b => if a = b then 1 else 0) (pyStr "other") (pyStr "another song"))) 0 < 1/2
       then none
       else [witOther, witExact].find? (fun it =>
         decide (scoreOf asciiU (fun a b => if a = b then 1 else 0)
             (pyStr "other") (pyStr "another song") it =
           pyMax ([witOther, witExact].map (scoreOf asciiU
             (fun a b => if a = b then 1 else 0) (pyStr "other") (pyStr "another song"))) 0))) :=
  bestMatch_no_exact asciiU (fun a b => if a = b then 1 else 0) [witOther, witExact]
    (pyStr "other") (pyStr "another song") (by decide)

/-! ### `search_track`: query fallback chain and cache (C3, C4) -/

/-- Python `s.lower().strip()` (lowercase, then strip), as used for the
cache key of `search_track`. -/
def lowerStrip (U : UModel) (s : PyStr) : PyStr :=
  stripBy U.isWhite (pyLower U s)

/-- The cache key of `search_track` (`spotify_client.py` line 124):
`f"{artist.lower().strip()}|{title.lower().strip()}"`. -/
def cacheKey (U : UModel) (artist title : PyStr) : PyStr :=
  lowerStrip U artist ++ pyStr "|" ++ lowerStrip U title

/-- Python `key in d` / `d[key]` combined: first match in an association
list, `none` when the key is absent. -/
def lookupA {α β : Type} [DecidableEq α] (k : α) : List (α × β) → Option β
  | [] => none
  | (k', v) :: r => if k' = k then some v else lookupA k r

/-- The mutable search cache of a `SpotifyClient` instance
(`self._search_cache`); stored values may be `none` (a cached no-match). -/
structure ClientState where
  cache : List (PyStr × Option CandItem)

/-- The query-fallback loop of `search_track` (lines 137-142): issue each
query in order and return the first accepted match; the second component
is the list of queries actually issued to `_search`. -/
def tryQueries (U : UModel) (ratio : PyStr → PyStr → ℚ) (search : PyStr → List CandItem)
    (ta tt : PyStr) : List PyStr → Option CandItem × List PyStr
  | [] => (none, [])
  | q :: qs =>
    match bestMatch U ratio (search q) ta tt with
    | some b => (some b, [q])
    | none =>
      let r := tryQueries U ratio search ta tt qs
      (r.1, q :: r.2)

/-- The three fallback queries of `search_track` (lines 132-136):
`artist:<artist> track:<title>`, then `<artist> <title>`, then the title
alone. -/
def queriesFor (artist title : PyStr) : List PyStr :=
  [pyStr "artist:" ++ artist ++ pyStr " track:" ++ title,
   artist ++ pyStr " " ++ title,
   title]

/-- `SpotifyClient.search_track` (lines 122-145): return the cached result
on a cache hit; otherwise run the query fallback chain, store whatever it
produced (including no-match) and return it. `search` stands for the
retried network call `_search`; the third component records the queries
issued during this call. -/
def search_track (U : UModel) (ratio : PyStr → PyStr → ℚ) (search : PyStr → List CandItem)
    (st : ClientState) (artist title : PyStr) :
    Option CandItem × ClientState × List PyStr :=
  let key := cacheKey U artist title
  match lookupA key st.cache with
  | some r => (r, st, [])
  | none =>
    let r := tryQueries U ratio search (pyNormalize U artist) (pyNormalize U title)
      (queriesFor artist title)
    (r.1, ⟨(key, r.1) :: st.cache⟩, r.2)

theorem tryQueries_spec (U : UModel) (ratio : PyStr → PyStr → ℚ)
    (search : PyStr → List CandItem) (ta tt : PyStr) :
    ∀ qs : List PyStr,
      tryQueries U ratio search ta tt qs =
        (qs.findSome? (fun q => bestMatch U ratio (search q) ta tt),
         qs.take (1 + qs.findIdx (fun q => (bestMatch U ratio (search q) ta tt).isSome))) := by
  intro qs
  induction qs with
  | nil => rfl
  | cons q qs ih =>
    cases hb : bestMatch U ratio (search q) ta tt with
    | some b =>
      simp [tryQueries, hb, List.findSome?_cons, List.findIdx_cons]
    | none =>
      have h1 : List.findSome? (fun x => bestMatch U ratio (search x) ta tt) (q :: qs) =
          List.findSome? (fun x => bestMatch U ratio (search x) ta tt) qs := by
        rw [List.findSome?_cons]
        simp [hb]
      have h2 : List.findIdx (fun x => (bestMatch U ratio (search x) ta tt).isSome) (q :: qs) =
          List.findIdx (fun x => (bestMatch U ratio (search x) ta tt).isSome) qs + 1 := by
        rw [List.findIdx_cons]
        simp [hb]
      simp only [tryQueries, hb, ih, h1, h2]
      rw [show 1 + (List.findIdx (fun x => (bestMatch U ratio (search x) ta tt).isSome) qs + 1)
          = (1 + List.findIdx (fun x => (bestMatch U ratio (search x) ta tt).isSome) qs) + 1
        from by omega, List.take_succ_cons]

/-- C3 (confirmed): on a cache miss, `search_track` issues the fallback
queries in exactly the order `artist:<a> track:<t>`, `<a> <t>`, `<t>`,
stops at the first query whose result set yields an accepted match, and
returns that match; in particular, if the first query returns an empty
result set and the second returns exactly one candidate that is an exact
hit, exactly two queries are issued and that candidate is returned. -/
theorem search_track_fallback_order (U : UModel) (ratio : PyStr → PyStr → ℚ)
    (search : PyStr → List CandItem) (st : ClientState) (artist title : PyStr)
    (hmiss : lookupA (cacheKey U artist title) st.cache = none) :
    ((search_track U ratio search st artist title).2.2 =
        (queriesFor artist title).take (1 + (queriesFor artist title).findIdx
          (fun q => (bestMatch U ratio (search q) (pyNormalize U artist)
            (pyNormalize U title)).isSome)) ∧
      (search_track U ratio search st artist title).1 =
        (queriesFor artist title).findSome?
          (fun q => bestMatch U ratio (search q) (pyNormalize U artist) (pyNormalize U title))) ∧
    (∀ c : CandItem,
      search (pyStr "artist:" ++ artist ++ pyStr " track:" ++ title) = [] →
      search (artist ++ pyStr " " ++ title) = [c] →
      isExactHit U c (pyNormalize U artist) (pyNormalize U title) = true →
      (search_track U ratio search st artist title).2.2 =
          [pyStr "artist:" ++ artist ++ pyStr " track:" ++ title,
           artist ++ pyStr " " ++ title] ∧
        (search_track U ratio search st artist title).1 = some c) := by
  have hgen : (search_track U ratio search st artist title).2.2 =
        (queriesFor artist title).take (1 + (queriesFor artist title).findIdx
          (fun q => (bestMatch U ratio (search q) (pyNormalize U artist)
            (pyNormalize U title)).isSome)) ∧
      (search_track U ratio search st artist title).1 =
        (queriesFor artist title).findSome?
          (fun q => bestMatch U ratio (search q) (pyNormalize U artist)
            (pyNormalize U title)) := by
    simp only [search_track, hmiss,
      tryQueries_spec U ratio search (pyNormalize U artist) (pyNormalize U title)]
    exact ⟨trivial, trivial⟩
  refine ⟨hgen, ?_⟩
  intro c h1 h2 hex
  have hb1 : bestMatch U ratio (search (pyStr "artist:" ++ artist ++ pyStr " track:" ++ title))
      (pyNormalize U artist) (pyNormalize U title) = none := by
    rw [h1]
    simp [bestMatch]
  have hb2 : bestMatch U ratio (search (artist ++ pyStr " " ++ title))
      (pyNormalize U artist) (pyNormalize U title) = some c := by
    rw [h2, bestMatch, if_neg (by simp), bmGo, if_pos hex]
  constructor
  · rw [hgen.1]
    simp only [queriesFor, List.findIdx_cons, hb1, hb2, Option.isSome_none, Option.isSome_some,
      cond_false, cond_true]
    rfl
  · rw [hgen.2]
    simp only [queriesFor, List.findSome?_cons, hb1, hb2]

/-- The search function of the C3 witness scenario: the structured query
returns no results, the plain concatenation query returns the exact
candidate, any other query returns nothing. -/
def witSearch (q : PyStr) : List CandItem :=
  if q = pyStr "hugh masekela" ++ pyStr " " ++ pyStr "skokiaan" then [witExact] else []

/-- Witness for C3: the Skokiaan scenario issues exactly the two first
queries and returns the exact candidate. -/
theorem search_track_fallback_order_witness :
    (search_track asciiU (fun _ _ => 0) witSearch ⟨[]⟩
        (pyStr "hugh masekela") (pyStr "skokiaan")).2.2 =
      [pyStr "artist:" ++ pyStr "hugh masekela" ++ pyStr " track:" ++ pyStr "skokiaan",
       pyStr "hugh masekela" ++ pyStr " " ++ pyStr "skokiaan"] ∧
    (search_track asciiU (fun _ _ => 0) witSearch ⟨[]⟩
        (pyStr "hugh masekela") (pyStr "skokiaan")).1 = some witExact :=
  (search_track_fallback_order asciiU (fun _ _ => 0) witSearch ⟨[]⟩
      (pyStr "hugh masekela") (pyStr "skokiaan") rfl).2
    witExact (by decide) (by decide) (by decide)

/-- C4 (confirmed): the search cache is write-once. If two successive
`search_track` calls on the same client have equal cache keys
(`lower().strip()` of artist and title joined by `|`), the second call
issues no queries at all — so the query resolver ran during at most one of
the two calls — and returns the identical stored result as the first,
including a stored no-match. -/
theorem search_track_cache_write_once (U : UModel) (ratio : PyStr → PyStr → ℚ)
    (search : PyStr → List CandItem) (st : ClientState) (a1 t1 a2 t2 : PyStr)
    (hkey : cacheKey U a1 t1 = cacheKey U a2 t2) :
    (search_track U ratio search (search_track U ratio search st a1 t1).2.1 a2 t2).1 =
        (search_track U ratio search st a1 t1).1 ∧
      (search_track U ratio search (search_track U ratio search st a1 t1).2.1 a2 t2).2.2 = [] := by
  cases h : lookupA (cacheKey U a1 t1) st.cache with
  | some r =>
    have h2 : lookupA (cacheKey U a2 t2) st.cache = some r := hkey ▸ h
    simp only [search_track, h, h2]
    exact ⟨trivial, trivial⟩
  | none =>
    have h2 : lookupA (cacheKey U a2 t2)
        ((cacheKey U a1 t1, (tryQueries U ratio search (pyNormalize U a1) (pyNormalize U t1)
          (queriesFor a1 t1)).1) :: st.cache) =
        some (tryQueries U ratio search (pyNormalize U a1) (pyNormalize U t1)
          (queriesFor a1 t1)).1 := by
      rw [lookupA, if_pos hkey]
    simp only [search_track, h, h2]
    exact ⟨trivial, trivial⟩

/-- Witness for C4: two calls whose raw arguments differ only by
whitespace share one cache key; everything misses, the second call issues
no queries and returns the stored no-match. -/
theorem search_track_cache_write_once_witness :
    (search_track asciiU (fun _ _ => 0) (fun _ => [])
        (search_track asciiU (fun _ _ => 0) (fun _ => []) ⟨[]⟩
          (pyStr " x") (pyStr "y")).2.1 (pyStr "x") (pyStr " y")).1 =
      (search_track asciiU (fun _ _ => 0) (fun _ => []) ⟨[]⟩ (pyStr " x") (pyStr "y")).1 ∧
    (search_track asciiU (fun _ _ => 0) (fun _ => [])
        (search_track asciiU (fun _ _ => 0) (fun _ => []) ⟨[]⟩
          (pyStr " x") (pyStr "y")).2.1 (pyStr "x") (pyStr " y")).2.2 = [] :=
  search_track_cache_write_once asciiU (fun _ _ => 0) (fun _ => []) ⟨[]⟩
    (pyStr " x") (pyStr "y") (pyStr "x") (pyStr " y") (by decide)

/-! ### `add_tracks` chunking and partial failure (C6) -/

/-- The chunk loop of `SpotifyClient.add_tracks` (`spotify_client.py`
lines 162-179). `fuel` bounds the recursion (one chunk consumes at least
one URI, so `uris.length` suffices); `i` is the chunk's start offset as in
`range(0, len(uris), 100)`; `upload i chunk` tells whether
`_add_tracks_chunk` for the chunk at offset `i` succeeds or raises after
its retries. Returns `(added, failed_uris, chunks_submitted)`. -/
def addTracksGo (upload : Nat → List PyStr → Bool) :
    Nat → Nat → List PyStr → Nat × List PyStr × List (List PyStr)
  | _, _, [] => (0, [], [])
  | 0, _, _ :: _ => (0, [], [])
  | fuel + 1, i, u :: us =>
    let chunk := (u :: us).take 100
    let r := addTracksGo upload fuel (i + 100) ((u :: us).drop 100)
    if upload i chunk then (chunk.length + r.1, r.2.1, chunk :: r.2.2)
    else (r.1, chunk ++ r.2.1, chunk :: r.2.2)

/-- `SpotifyClient.add_tracks`: submit `uris` in chunks of at most 100,
summing added counts and collecting the URIs of failed chunks. -/
def add_tracks (upload : Nat → List PyStr → Bool) (uris : List PyStr) :
    Nat × List PyStr × List (List PyStr) :=
  addTracksGo upload uris.length 0 uris

theorem addTracksGo_nil (upload : Nat → List PyStr → Bool) (fuel i : Nat) :
    addTracksGo upload fuel i [] = (0, [], []) := by
  cases fuel <;> rfl

theorem addTracksGo_step (upload : Nat → List PyStr → Bool) (fuel i : Nat)
    (l : List PyStr) (hne : l ≠ []) :
    addTracksGo upload (fuel + 1) i l =
      (if upload i (l.take 100) then
        ((l.take 100).length + (addTracksGo upload fuel (i + 100) (l.drop 100)).1,
         (addTracksGo upload fuel (i + 100) (l.drop 100)).2.1,
         l.take 100 :: (addTracksGo upload fuel (i + 100) (l.drop 100)).2.2)
      else
        ((addTracksGo upload fuel (i + 100) (l.drop 100)).1,
         l.take 100 ++ (addTracksGo upload fuel (i + 100) (l.drop 100)).2.1,
         l.take 100 :: (addTracksGo upload fuel (i + 100) (l.drop 100)).2.2)) := by
  cases l with
  | nil => exact absurd rfl hne
  | cons u us => rfl

theorem addTracksGo_spec (upload : Nat → List PyStr → Bool) :
    ∀ (fuel i : Nat) (l : List PyStr), l.length ≤ fuel →
      (addTracksGo upload fuel i l).2.2.flatten = l ∧
      (∀ c ∈ (addTracksGo upload fuel i l).2.2, 0 < c.length ∧ c.length ≤ 100) ∧
      (addTracksGo upload fuel i l).1 + (addTracksGo upload fuel i l).2.1.length = l.length := by
  intro fuel
  induction fuel with
  | zero =>
    intro i l hl
    cases l with
    | nil => simp [addTracksGo]
    | cons u us => simp at hl
  | succ fuel ih =>
    intro i l hl
    cases l with
    | nil => simp [addTracksGo]
    | cons u us =>
      have hdl : ((u :: us).drop 100).length ≤ fuel := by
        rw [List.length_drop]
        simp only [List.length_cons] at hl ⊢
        omega
      have hrec := ih (i + 100) ((u :: us).drop 100) hdl
      rw [addTracksGo_step upload fuel i (u :: us) (by simp)]
      have htk : ((u :: us).take 100).length = min 100 (u :: us).length :=
        List.length_take 100 (u :: us)
      have hds : ((u :: us).drop 100).length = (u :: us).length - 100 :=
        List.length_drop 100 (u :: us)
      by_cases hu : upload i ((u :: us).take 100)
      · rw [if_pos hu]
        refine ⟨?_, ?_, ?_⟩
        · simp only [List.flatten_cons, hrec.1, List.take_append_drop]
        · intro c hc
          rcases List.mem_cons.mp hc with h | h
          · subst h
            constructor <;> (simp only [htk, List.length_cons]; omega)
          · exact hrec.2.1 c h
        · have := hrec.2.2
          simp only [List.length_cons] at *
          omega
      · rw [if_neg hu]
        refine ⟨?_, ?_, ?_⟩
        · simp only [List.flatten_cons, hrec.1, List.take_append_drop]
        · intro c hc
          rcases List.mem_cons.mp hc with h | h
          · subst h
            constructor <;> (simp only [htk, List.length_cons]; omega)
          · exact hrec.2.1 c h
        · have := hrec.2.2
          simp only [List.length_append, List.length_cons] at *
          omega

/-- C6 (confirmed): `add_tracks` partitions the URI list in order into
chunks of at most 100 (their concatenation is the input, every chunk
nonempty and of size at most 100); `added_count` plus the number of failed
URIs always equals the input length; and in the 250-URI scenario where
exactly the second chunk's upload fails, exactly 3 requests of sizes 100,
100 and 50 are issued, `added_count = 150`, and `failed_uris` is exactly
the second chunk. -/
theorem add_tracks_spec (upload : Nat → List PyStr → Bool) (uris : List PyStr) :
    ((add_tracks upload uris).2.2.flatten = uris ∧
     (∀ c ∈ (add_tracks upload uris).2.2, 0 < c.length ∧ c.length ≤ 100) ∧
     (add_tracks upload uris).1 + (add_tracks upload uris).2.1.length = uris.length) ∧
    (uris.length = 250 →
      upload 0 (uris.take 100) = true →
      upload 100 ((uris.drop 100).take 100) = false →
      upload 200 (uris.drop 200) = true →
      (add_tracks upload uris).2.2 =
          [uris.take 100, (uris.drop 100).take 100, uris.drop 200] ∧
        (add_tracks upload uris).2.2.map List.length = [100, 100, 50] ∧
        (add_tracks upload uris).1 = 150 ∧
        (add_tracks upload uris).2.1 = (uris.drop 100).take 100) := by
  constructor
  · exact addTracksGo_spec upload uris.length 0 uris (le_refl _)
  · intro h250 hu0 hu100 hu200
    have hne1 : uris ≠ [] := by
      intro h
      rw [h] at h250
      simp at h250
    have hd100 : (uris.drop 100).length = 150 := by
      rw [List.length_drop, h250]
    have hd200 : (uris.drop 200).length = 50 := by
      rw [List.length_drop, h250]
    have hne2 : uris.drop 100 ≠ [] := by
      intro h
      rw [h] at hd100
      simp at hd100
    have hne3 : uris.drop 200 ≠ [] := by
      intro h
      rw [h] at hd200
      simp at hd200
    have hdd : (uris.drop 100).drop 100 = uris.drop 200 := by
      rw [List.drop_drop]
    have hddd : (uris.drop 200).drop 100 = [] := by
      have : ((uris.drop 200).drop 100).length = 0 := by
        rw [List.length_drop, hd200]
      exact List.eq_nil_of_length_eq_zero this
    have htk3 : (uris.drop 200).take 100 = uris.drop 200 :=
      List.take_of_length_le (by rw [hd200]; omega)
    have h1 : uris.length = 249 + 1 := by rw [h250]
    have h2 : (249 : ℕ) = 248 + 1 := rfl
    have h3 : (248 : ℕ) = 247 + 1 := rfl
    have step3 : addTracksGo upload 248 200 (uris.drop 200) =
        (50, [], [uris.drop 200]) := by
      rw [h3, addTracksGo_step upload 247 200 (uris.drop 200) hne3, htk3, hddd,
        addTracksGo_nil, if_pos hu200, hd200]
      rfl
    have step2 : addTracksGo upload 249 100 (uris.drop 100) =
        (50, (uris.drop 100).take 100, [(uris.drop 100).take 100, uris.drop 200]) := by
      rw [h2, addTracksGo_step upload 248 100 (uris.drop 100) hne2, hdd, step3,
        if_neg (by simp [hu100])]
      simp
    have step1 : add_tracks upload uris =
        (150, (uris.drop 100).take 100,
          [uris.take 100, (uris.drop 100).take 100, uris.drop 200]) := by
      rw [add_tracks, h1, addTracksGo_step upload 249 0 uris hne1, step2, if_pos hu0]
      have e0 : (uris.take 100).length = 100 := by
        rw [List.length_take, h250]
        omega
      rw [e0]
      rfl
    refine ⟨by rw [step1], ?_, by rw [step1], by rw [step1]⟩
    rw [step1]
    have e1 : (uris.take 100).length = 100 := by
      rw [List.length_take, h250]
      omega
    have e2 : ((uris.drop 100).take 100).length = 100 := by
      rw [List.length_take, hd100]
      omega
    simp [e1, e2, hd200]

/-- The 250 URIs of the C6 witness: `["0"], ["1"], …` as code-point
lists. -/
def witUris : List PyStr := (List.range 250).map (fun n => [n])

/-- The upload outcome of the C6 witness: only the chunk at offset 100
fails. -/
def witUpload (i : Nat) (_ : List PyStr) : Bool := i != 100

set_option maxRecDepth 4000 in
/-- Witness for C6: the 250-URI scenario evaluated concretely. -/
theorem add_tracks_spec_witness :
    (add_tracks witUpload witUris).2.2 =
        [witUris.take 100, (witUris.drop 100).take 100, witUris.drop 200] ∧
      (add_tracks witUpload witUris).2.2.map List.length = [100, 100, 50] ∧
      (add_tracks witUpload witUris).1 = 150 ∧
      (add_tracks witUpload witUris).2.1 = (witUris.drop 100).take 100 :=
  (add_tracks_spec witUpload witUris).2 (by decide) (by decide) (by decide) (by decide)

/-! ### The batch mapper `_map_tracks_to_spotify` (C7, C8, C9) -/

/-- A parsed track (`app.models.Track`). -/
structure Track where
  artist : PyStr
  title : PyStr
  album : Option PyStr
  source_line : Option PyStr
deriving DecidableEq

/-- A parsed block (`app.models.TrackBlock`). -/
structure TrackBlock where
  title : PyStr
  context : Option PyStr
  tracks : List Track
deriving DecidableEq

/-- A mapped-track record (`pipeline.py` lines 249-258): the original
track fields plus the resolved `spotify_uri` and `spotify_url`. -/
structure MappedTrack where
  artist : PyStr
  title : PyStr
  album : Option PyStr
  source_line : Option PyStr
  spotify_uri : PyStr
  spotify_url : PyStr
deriving DecidableEq

/-- A mapped-block record (`pipeline.py` lines 259-265). -/
structure MappedBlock where
  title : PyStr
  context : Option PyStr
  tracks : List MappedTrack
deriving DecidableEq

/-- A miss record (`pipeline.py` line 247). -/
structure Miss where
  block : PyStr
  artist : PyStr
  title : PyStr
deriving DecidableEq

/-- The mapped-track dict built on a hit (lines 249-258). -/
def mkMapped (t : Track) (item : CandItem) : MappedTrack :=
  ⟨t.artist, t.title, t.album, t.source_line, item.uri, item.url⟩

/-- The inner track loop of `_map_tracks_to_spotify` (lines 244-258) for
one block, over an abstract stateful searcher `f` (the client's
`search_track`, whose cache state `σ` threads through the calls). -/
def mapBlockTracks {σ : Type} (f : σ → PyStr → PyStr → Option CandItem × σ)
    (bt : PyStr) : σ → List Track → List MappedTrack × List Miss × σ
  | s, [] => ([], [], s)
  | s, t :: ts =>
    let r := f s t.artist t.title
    let rest := mapBlockTracks f bt r.2 ts
    match r.1 with
    | none => (rest.1, ⟨bt, t.artist, t.title⟩ :: rest.2.1, rest.2.2)
    | some item => (mkMapped t item :: rest.1, rest.2.1, rest.2.2)

/-- `_map_tracks_to_spotify` (`pipeline.py` lines 237-266): one mapped
block per input block, misses appended in block-major, track-minor
order. -/
def mapTracks {σ : Type} (f : σ → PyStr → PyStr → Option CandItem × σ) :
    σ → List TrackBlock → List MappedBlock × List Miss × σ
  | s, [] => ([], [], s)
  | s, b :: bs =>
    let rb := mapBlockTracks f b.title s b.tracks
    let rrest := mapTracks f rb.2.2 bs
    (⟨b.title, b.context, rb.1⟩ :: rrest.1, rb.2.1 ++ rrest.2.1, rrest.2.2)

theorem mapBlockTracks_count {σ : Type} (f : σ → PyStr → PyStr → Option CandItem × σ)
    (bt : PyStr) : ∀ (ts : List Track) (s : σ),
    (mapBlockTracks f bt s ts).1.length + (mapBlockTracks f bt s ts).2.1.length = ts.length := by
  intro ts
  induction ts with
  | nil => intro s; rfl
  | cons t ts ih =>
    intro s
    simp only [mapBlockTracks]
    cases (f s t.artist t.title).1 with
    | none =>
      simp only [List.length_cons]
      have := ih (f s t.artist t.title).2
      omega
    | some item =>
      simp only [List.length_cons]
      have := ih (f s t.artist t.title).2
      omega

/-- C7 (confirmed): the batch mapper emits exactly one output block per
input block, in input order and with title/context preserved (a block
whose tracks all miss keeps an empty mapped-track list); per run, mapped
tracks plus misses account for every input track; and in the two-block
scenario where `t2` and `t3` miss, the outputs and the miss order
(block-major, track-minor) are exactly as the specification states. -/
theorem mapTracks_order {σ : Type} (f : σ → PyStr → PyStr → Option CandItem × σ)
    (s : σ) (blocks : List TrackBlock) :
    ((mapTracks f s blocks).1.map (fun b => (b.title, b.context)) =
        blocks.map (fun b => (b.title, b.context)) ∧
      ((mapTracks f s blocks).1.map (fun b => b.tracks.length)).sum +
          (mapTracks f s blocks).2.1.length =
        (blocks.map (fun b => b.tracks.length)).sum) ∧
    (∀ (b1t b2t : PyStr) (b1c b2c : Option PyStr) (t1 t2 t3 : Track) (i1 : CandItem)
        (s0 s1 s2 s3 : σ),
      f s0 t1.artist t1.title = (some i1, s1) →
      f s1 t2.artist t2.title = (none, s2) →
      f s2 t3.artist t3.title = (none, s3) →
      mapTracks f s0 [⟨b1t, b1c, [t1, t2]⟩, ⟨b2t, b2c, [t3]⟩] =
        ([⟨b1t, b1c, [mkMapped t1 i1]⟩, ⟨b2t, b2c, []⟩],
         [⟨b1t, t2.artist, t2.title⟩, ⟨b2t, t3.artist, t3.title⟩], s3)) := by
  constructor
  · induction blocks generalizing s with
    | nil => exact ⟨rfl, rfl⟩
    | cons b bs ih =>
      obtain ⟨ih1, ih2⟩ := ih (mapBlockTracks f b.title s b.tracks).2.2
      constructor
      · simp only [mapTracks, List.map_cons, ih1]
      · simp only [mapTracks, List.map_cons, List.sum_cons, List.length_append]
        have hb := mapBlockTracks_count f b.title b.tracks s
        omega
  · intro b1t b2t b1c b2c t1 t2 t3 i1 s0 s1 s2 s3 hf1 hf2 hf3
    simp only [mapTracks, mapBlockTracks, hf1, hf2, hf3]
    rfl

/-- The stateful searcher of the C7 witness: hits on the very first call
(state 0), misses afterwards; the state counts calls. -/
def witSearcher (s : Nat) (_a _t : PyStr) : Option CandItem × Nat :=
  (if s = 0 then some witExact else none, s + 1)

/-- Tracks of the C7 witness scenario. -/
def witT1 : Track := ⟨pyStr "artist one", pyStr "title one", none, none⟩

/-- Second track of the C7 witness scenario (will miss). -/
def witT2 : Track := ⟨pyStr "artist two", pyStr "title two", none, none⟩

/-- Third track of the C7 witness scenario (will miss). -/
def witT3 : Track := ⟨pyStr "artist three", pyStr "title three", none, none⟩

/-- Witness for C7: the two-block scenario evaluated concretely. -/
theorem mapTracks_order_witness :
    mapTracks witSearcher 0 [⟨pyStr "b1", none, [witT1, witT2]⟩, ⟨pyStr "b2", none, [witT3]⟩] =
      ([⟨pyStr "b1", none, [mkMapped witT1 witExact]⟩, ⟨pyStr "b2", none, []⟩],
       [⟨pyStr "b1", witT2.artist, witT2.title⟩, ⟨pyStr "b2", witT3.artist, witT3.title⟩], 3) :=
  (mapTracks_order witSearcher 0 []).2 (pyStr "b1") (pyStr "b2") none none
    witT1 witT2 witT3 witExact 0 1 2 3 (by decide) (by decide) (by decide)

/-- C8 (code bug): `pipeline._map_tracks_to_spotify` has no
`keep_unmatched` parameter at all — a track that misses is always omitted
from its block's mapped-track list (shown here), while the remap endpoint
(`web/api/routes/spotify.py` line 106) calls the function with
`keep_unmatched=True`, which raises `TypeError` at runtime instead of
retaining unmatched tracks. -/
theorem mapTracks_no_keep_unmatched {σ : Type} (f : σ → PyStr → PyStr → Option CandItem × σ)
    (bt : PyStr) (ctx : Option PyStr) (t : Track) (s s' : σ)
    (hf : f s t.artist t.title = (none, s')) :
    mapTracks f s [⟨bt, ctx, [t]⟩] =
      ([⟨bt, ctx, []⟩], [⟨bt, t.artist, t.title⟩], s') := by
  simp only [mapTracks, mapBlockTracks, hf]
  rfl

/-- Witness for C8: a concrete miss is dropped from the block, not
retained. -/
theorem mapTracks_no_keep_unmatched_witness :
    mapTracks (fun (s : Nat) _ _ => ((none : Option CandItem), s + 1)) 0
        [⟨pyStr "b1", none, [witT2]⟩] =
      ([⟨pyStr "b1", none, []⟩], [⟨pyStr "b1", witT2.artist, witT2.title⟩], 1) :=
  mapTracks_no_keep_unmatched (fun (s : Nat) _ _ => ((none : Option CandItem), s + 1))
    (pyStr "b1") none witT2 0 1 (by decide)

/-- The inner track loop with a fallible searcher (`ε` is the exception
type): `pipeline.py` line 245 calls `client.search_track` with no
try/except, so a raised exception propagates out of the loop. -/
def mapBlockTracksE {σ ε : Type} (f : σ → PyStr → PyStr → Except ε (Option CandItem × σ))
    (bt : PyStr) : σ → List Track → Except ε (List MappedTrack × List Miss × σ)
  | s, [] => .ok ([], [], s)
  | s, t :: ts =>
    match f s t.artist t.title with
    | .error e => .error e
    | .ok r =>
      match mapBlockTracksE f bt r.2 ts with
      | .error e => .error e
      | .ok rest =>
        match r.1 with
        | none => .ok (rest.1, ⟨bt, t.artist, t.title⟩ :: rest.2.1, rest.2.2)
        | some item => .ok (mkMapped t item :: rest.1, rest.2.1, rest.2.2)

/-- `_map_tracks_to_spotify` over a fallible searcher: any exception from
a track's search propagates and aborts the whole mapping. -/
def mapTracksE {σ ε : Type} (f : σ → PyStr → PyStr → Except ε (Option CandItem × σ)) :
    σ → List TrackBlock → Except ε (List MappedBlock × List Miss × σ)
  | s, [] => .ok ([], [], s)
  | s, b :: bs =>
    match mapBlockTracksE f b.title s b.tracks with
    | .error e => .error e
    | .ok rb =>
      match mapTracksE f rb.2.2 bs with
      | .error e => .error e
      | .ok rrest =>
        .ok (⟨b.title, b.context, rb.1⟩ :: rrest.1, rb.2.1 ++ rrest.2.1, rrest.2.2)

/-- The fallible searcher of the C9 counterexample: raises exception `7`
on the track whose artist is `"boom"`, otherwise misses. -/
def boomSearcher (s : Nat) (a _t : PyStr) : Except Nat (Option CandItem × Nat) :=
  if a = pyStr "boom" then .error 7 else .ok (none, s + 1)

/-- Counterexample for C9: when the search of the first track raises, the
mapper returns the propagated error — the failed track is not recorded as
a miss and the remaining track is never processed, contradicting the
claim that the loop records a miss and continues. -/
theorem mapTracksE_raise_counterexample :
    mapTracksE boomSearcher 0
        [⟨pyStr "b1", none, [⟨pyStr "boom", pyStr "t1", none, none⟩,
          ⟨pyStr "safe", pyStr "t2", none, none⟩]⟩] =
      Except.error 7 := rfl

/-- C9 (corrected): a search that raises propagates out of the batch
mapper and aborts the whole mapping with that exception (first clause);
only when every search returns normally does the mapper behave as the
pure loop, recording no-match results as misses and continuing (second
clause). -/
theorem mapTracksE_error_propagation {σ ε : Type}
    (f : σ → PyStr → PyStr → Except ε (Option CandItem × σ)) :
    (∀ (s : σ) (bt : PyStr) (ctx : Option PyStr) (t : Track) (ts : List Track)
        (bs : List TrackBlock) (e : ε),
      f s t.artist t.title = .error e →
      mapTracksE f s (⟨bt, ctx, t :: ts⟩ :: bs) = .error e) ∧
    (∀ g : σ → PyStr → PyStr → Option CandItem × σ,
      (∀ s a t, f s a t = .ok (g s a t)) →
      ∀ (s : σ) (blocks : List TrackBlock),
        mapTracksE f s blocks = .ok (mapTracks g s blocks)) := by
  constructor
  · intro s bt ctx t ts bs e hf
    simp only [mapTracksE, mapBlockTracksE, hf]
  · intro g hg
    have hblk : ∀ (bt : PyStr) (ts : List Track) (s : σ),
        mapBlockTracksE f bt s ts = .ok (mapBlockTracks g bt s ts) := by
      intro bt ts
      induction ts with
      | nil => intro s; rfl
      | cons t ts ih =>
        intro s
        simp only [mapBlockTracksE, hg, mapBlockTracks, ih]
        cases (g s t.artist t.title).1 <;> rfl
    intro s blocks
    induction blocks generalizing s with
    | nil => rfl
    | cons b bs ih =>
      simp only [mapTracksE, hblk, mapTracks, ih]

/-- Witness for C9 (amended): both clauses at concrete inputs — the raise
aborts with the error, and an always-normal searcher yields the pure
mapper's result. -/
theorem mapTracksE_error_propagation_witness :
    mapTracksE boomSearcher 5
        [⟨pyStr "blk", none, [⟨pyStr "boom", pyStr "tt", none, none⟩]⟩,
         ⟨pyStr "blk2", none, [witT2]⟩] = Except.error 7 ∧
    mapTracksE (fun (s : Nat) a t => Except.ok (ε := Nat) (witSearcher s a t)) 0
        [⟨pyStr "b1", none, [witT1, witT2]⟩] =
      Except.ok (mapTracks witSearcher 0 [⟨pyStr "b1", none, [witT1, witT2]⟩]) :=
  ⟨(mapTracksE_error_propagation boomSearcher).1 5 (pyStr "blk") none
      ⟨pyStr "boom", pyStr "tt", none, none⟩ [] [⟨pyStr "blk2", none, [witT2]⟩] 7 rfl,
    (mapTracksE_error_propagation
        (fun (s : Nat) a t => Except.ok (ε := Nat) (witSearcher s a t))).2
      witSearcher (fun _ _ _ => rfl) 0 [⟨pyStr "b1", none, [witT1, witT2]⟩]⟩

/-! ### Merge and global dedupe in `_process_url` (C10) -/

/-- Python `s.strip().lower()` (strip, then lowercase), as used by the
merge key of `_merge_blocks_by_title`. -/
def stripLower (U : UModel) (s : PyStr) : PyStr :=
  pyLower U (stripBy U.isWhite s)

/-- The merge key of `_merge_blocks_by_title` (`pipeline.py` line 202):
`(block.title.strip().lower(), (block.context or "").strip().lower() or
None)` — an empty folded context becomes `None`. -/
def blockKey (U : UModel) (b : TrackBlock) : PyStr × Option PyStr :=
  (stripLower U b.title,
   if stripLower U (b.context.getD []) = ([] : PyStr) then none
   else some (stripLower U (b.context.getD [])))

/-- Python dict assignment `d[k] = v` when `k` may already be present:
the first entry with key `k` is replaced in place, otherwise the pair is
appended (insertion order). -/
def updateA {α β : Type} [DecidableEq α] (k : α) (v : β) : List (α × β) → List (α × β)
  | [] => [(k, v)]
  | (k', v') :: r => if k' = k then (k, v) :: r else (k', v') :: updateA k v r

/-- One iteration of the loop of `_merge_blocks_by_title` (`pipeline.py`
lines 201-212): append the block's tracks to the existing entry with the
same key (keeping the first block's title and context), else insert. -/
def mergeStep (U : UModel) (acc : List ((PyStr × Option PyStr) × TrackBlock))
    (b : TrackBlock) : List ((PyStr × Option PyStr) × TrackBlock) :=
  match lookupA (blockKey U b) acc with
  | some existing =>
    updateA (blockKey U b)
      ⟨existing.title, existing.context, existing.tracks ++ b.tracks⟩ acc
  | none => acc ++ [(blockKey U b, b)]

/-- `_merge_blocks_by_title` (`pipeline.py` lines 197-214):
`list(merged.values())` of the insertion-ordered dict built by the
loop. -/
def mergeBlocksByTitle (U : UModel) (blocks : List TrackBlock) : List TrackBlock :=
  (blocks.foldl (mergeStep U) []).map (fun p => p.2)

/-- The dedupe key of `_dedupe_tracks` (`pipeline.py` line 172):
`(artist.lower().strip(), title.lower().strip())`. -/
def trackKey (U : UModel) (t : Track) : PyStr × PyStr :=
  (lowerStrip U t.artist, lowerStrip U t.title)

/-- `_dedupe_tracks` (`pipeline.py` lines 166-177) with a shared seen set
(modelled as the list of keys already seen). -/
def dedupeTracks (U : UModel) :
    List (PyStr × PyStr) → List Track → List Track × List (PyStr × PyStr)
  | seen, [] => ([], seen)
  | seen, t :: ts =>
    if trackKey U t ∈ seen then dedupeTracks U seen ts
    else
      let r := dedupeTracks U (trackKey U t :: seen) ts
      (t :: r.1, r.2)

/-- The block loop of `_dedupe_blocks_globally` (`pipeline.py` lines
180-194): one shared seen set across blocks, blocks left without tracks
are dropped. -/
def dedupeBlocksAux (U : UModel) :
    List (PyStr × PyStr) → List TrackBlock → List TrackBlock
  | _, [] => []
  | seen, b :: bs =>
    let r := dedupeTracks U seen b.tracks
    let rest := dedupeBlocksAux U r.2 bs
    if r.1 = [] then rest else ⟨b.title, b.context, r.1⟩ :: rest

/-- `_dedupe_blocks_globally` (`pipeline.py` lines 180-194). -/
def dedupeBlocksGlobally (U : UModel) (blocks : List TrackBlock) : List TrackBlock :=
  dedupeBlocksAux U [] blocks

/-- The merge-then-dedupe step of `_process_url` (`pipeline.py` lines
223-225). -/
def processBlocks (U : UModel) (blocks : List TrackBlock) : List TrackBlock :=
  dedupeBlocksGlobally U (mergeBlocksByTitle U blocks)

/-- All tracks of a block list in block-major, track-minor order. -/
def flatTracks (blocks : List TrackBlock) : List Track :=
  blocks.flatMap (fun b => b.tracks)

/-- First-occurrence-keeping dedupe of a flat track list under a running
seen set: the specification that `_dedupe_blocks_globally` refines. -/
def dedupList (U : UModel) : List (PyStr × PyStr) → List Track → List Track
  | _, [] => []
  | seen, t :: ts =>
    if trackKey U t ∈ seen then dedupList U seen ts
    else t :: dedupList U (trackKey U t :: seen) ts

theorem dedupList_append (U : UModel) :
    ∀ (ts rest : List Track) (seen : List (PyStr × PyStr)),
      dedupList U seen (ts ++ rest) =
        (dedupeTracks U seen ts).1 ++ dedupList U (dedupeTracks U seen ts).2 rest := by
  intro ts rest
  induction ts with
  | nil => intro seen; rfl
  | cons t ts ih =>
    intro seen
    by_cases h : trackKey U t ∈ seen
    · simp only [List.cons_append, dedupList, dedupeTracks, if_pos h]
      exact ih seen
    · simp only [List.cons_append, dedupList, dedupeTracks, if_neg h]
      exact congrArg (t :: ·) (ih _)

theorem flatTracks_dedupeBlocksAux (U : UModel) :
    ∀ (blocks : List TrackBlock) (seen : List (PyStr × PyStr)),
      flatTracks (dedupeBlocksAux U seen blocks) = dedupList U seen (flatTracks blocks) := by
  intro blocks
  induction blocks with
  | nil => intro seen; rfl
  | cons b bs ih =>
    intro seen
    simp only [dedupeBlocksAux]
    rw [show flatTracks (b :: bs) = b.tracks ++ flatTracks bs from rfl,
      dedupList_append U b.tracks (flatTracks bs) seen]
    by_cases h : (dedupeTracks U seen b.tracks).1 = []
    · rw [if_pos h, h, List.nil_append, ih]
    · rw [if_neg h,
        show flatTracks (⟨b.title, b.context, (dedupeTracks U seen b.tracks).1⟩ ::
            dedupeBlocksAux U (dedupeTracks U seen b.tracks).2 bs) =
          (dedupeTracks U seen b.tracks).1 ++
            flatTracks (dedupeBlocksAux U (dedupeTracks U seen b.tracks).2 bs) from rfl,
        ih]

theorem dedupList_sublist (U : UModel) :
    ∀ (ts : List Track) (seen : List (PyStr × PyStr)), (dedupList U seen ts).Sublist ts := by
  intro ts
  induction ts with
  | nil => intro seen; exact List.Sublist.refl []
  | cons t ts ih =>
    intro seen
    by_cases h : trackKey U t ∈ seen
    · rw [dedupList, if_pos h]
      exact (ih seen).cons t
    · rw [dedupList, if_neg h]
      exact (ih _).cons₂ t

theorem dedupList_keys (U : UModel) :
    ∀ (ts : List Track) (seen : List (PyStr × PyStr)),
      ((dedupList U seen ts).map (trackKey U)).Pairwise (· ≠ ·) ∧
      ∀ k ∈ (dedupList U seen ts).map (trackKey U), k ∉ seen := by
  intro ts
  induction ts with
  | nil => intro seen; exact ⟨List.Pairwise.nil, by simp [dedupList]⟩
  | cons t ts ih =>
    intro seen
    by_cases h : trackKey U t ∈ seen
    · rw [dedupList, if_pos h]
      exact ih seen
    · rw [dedupList, if_neg h]
      obtain ⟨ih1, ih2⟩ := ih (trackKey U t :: seen)
      simp only [List.map_cons]
      constructor
      · rw [List.pairwise_cons]
        refine ⟨fun k hk he => ?_, ih1⟩
        exact (ih2 k hk) (he ▸ List.mem_cons_self _ _)
      · intro k hk
        rcases List.mem_cons.mp hk with he | hm
        · subst he
          exact h
        · intro hks
          exact (ih2 k hm) (List.mem_cons_of_mem _ hks)

theorem dedupeBlocksAux_pairs_sublist (U : UModel) :
    ∀ (blocks : List TrackBlock) (seen : List (PyStr × PyStr)),
      ((dedupeBlocksAux U seen blocks).map (fun b => (b.title, b.context))).Sublist
        (blocks.map (fun b => (b.title, b.context))) := by
  intro blocks
  induction blocks with
  | nil => intro seen; exact List.Sublist.refl _
  | cons b bs ih =>
    intro seen
    simp only [dedupeBlocksAux, List.map_cons]
    by_cases h : (dedupeTracks U seen b.tracks).1 = []
    · rw [if_pos h]
      exact (ih _).cons _
    · rw [if_neg h]
      simp only [List.map_cons]
      exact (ih _).cons₂ _

theorem dedupeBlocksAux_nonempty (U : UModel) :
    ∀ (blocks : List TrackBlock) (seen : List (PyStr × PyStr)),
      ∀ b ∈ dedupeBlocksAux U seen blocks, b.tracks ≠ [] := by
  intro blocks
  induction blocks with
  | nil =>
    intro seen b hb
    simp [dedupeBlocksAux] at hb
  | cons b0 bs ih =>
    intro seen b hb
    simp only [dedupeBlocksAux] at hb
    by_cases h : (dedupeTracks U seen b0.tracks).1 = []
    · rw [if_pos h] at hb
      exact ih _ b hb
    · rw [if_neg h] at hb
      rcases List.mem_cons.mp hb with he | hm
      · subst he
        exact h
      · exact ih _ b hm

/-- The tracks stored in a merge accumulator, in entry order. -/
def flatP (acc : List ((PyStr × Option PyStr) × TrackBlock)) : List Track :=
  acc.flatMap (fun p => p.2.tracks)

theorem lookupA_none_keys {α β : Type} [DecidableEq α] (k : α) :
    ∀ acc : List (α × β), lookupA k acc = none → ∀ p ∈ acc, p.1 ≠ k := by
  intro acc
  induction acc with
  | nil =>
    intro _ p hp
    simp at hp
  | cons q r ih =>
    obtain ⟨k', v⟩ := q
    intro h p hp
    rw [lookupA] at h
    by_cases hk : k' = k
    · rw [if_pos hk] at h
      exact absurd h (by simp)
    · rw [if_neg hk] at h
      rcases List.mem_cons.mp hp with he | hm
      · subst he
        exact hk
      · exact ih h p hm

theorem lookupA_some_mem {α β : Type} [DecidableEq α] (k : α) :
    ∀ (acc : List (α × β)) (v : β), lookupA k acc = some v → (k, v) ∈ acc := by
  intro acc
  induction acc with
  | nil =>
    intro v h
    simp [lookupA] at h
  | cons q r ih =>
    obtain ⟨k', v'⟩ := q
    intro v h
    rw [lookupA] at h
    by_cases hk : k' = k
    · rw [if_pos hk] at h
      have hv : v' = v := by
        injection h
      rw [← hk, ← hv]
      exact List.mem_cons_self _ _
    · rw [if_neg hk] at h
      exact List.mem_cons_of_mem _ (ih v h)

theorem mem_updateA {α β : Type} [DecidableEq α] (k : α) (v : β) :
    ∀ acc : List (α × β), ∀ p ∈ updateA k v acc, p = (k, v) ∨ p ∈ acc := by
  intro acc
  induction acc with
  | nil =>
    intro p hp
    rw [updateA] at hp
    rcases List.mem_cons.mp hp with he | hm
    · exact Or.inl he
    · simp at hm
  | cons q r ih =>
    obtain ⟨k', v'⟩ := q
    intro p hp
    rw [updateA] at hp
    by_cases hk : k' = k
    · rw [if_pos hk] at hp
      rcases List.mem_cons.mp hp with he | hm
      · exact Or.inl he
      · exact Or.inr (List.mem_cons_of_mem _ hm)
    · rw [if_neg hk] at hp
      rcases List.mem_cons.mp hp with he | hm
      · exact Or.inr (he ▸ List.mem_cons_self _ _)
      · rcases ih p hm with h' | h'
        · exact Or.inl h'
        · exact Or.inr (List.mem_cons_of_mem _ h')

theorem updateA_keys_of_found {α β : Type} [DecidableEq α] (k : α) (v : β) :
    ∀ acc : List (α × β), lookupA k acc ≠ none →
      (updateA k v acc).map (fun p => p.1) = acc.map (fun p => p.1) := by
  intro acc
  induction acc with
  | nil =>
    intro h
    exact absurd rfl h
  | cons q r ih =>
    obtain ⟨k', v'⟩ := q
    intro h
    rw [lookupA] at h
    rw [updateA]
    by_cases hk : k' = k
    · rw [if_pos hk]
      simp only [List.map_cons, hk]
    · rw [if_neg hk]
      simp only [List.map_cons]
      rw [ih (by rw [if_neg hk] at h; exact h)]

theorem flatP_updateA (T : PyStr) (C : Option PyStr) (ts : List Track)
    (k : PyStr × Option PyStr) :
    ∀ (acc : List ((PyStr × Option PyStr) × TrackBlock)) (ex : TrackBlock),
      lookupA k acc = some ex →
      (flatP (updateA k ⟨T, C, ex.tracks ++ ts⟩ acc)).Perm (flatP acc ++ ts) := by
  intro acc
  induction acc with
  | nil =>
    intro ex h
    simp [lookupA] at h
  | cons q r ih =>
    obtain ⟨k', v⟩ := q
    intro ex h
    rw [lookupA] at h
    by_cases hk : k' = k
    · rw [if_pos hk] at h
      have hv : v = ex := by
        injection h
      subst hv
      rw [updateA, if_pos hk]
      show ((v.tracks ++ ts) ++ flatP r).Perm ((v.tracks ++ flatP r) ++ ts)
      rw [List.append_assoc, List.append_assoc]
      exact List.Perm.append_left _ List.perm_append_comm
    · rw [if_neg hk] at h
      rw [updateA, if_neg hk]
      show (v.tracks ++ flatP (updateA k ⟨T, C, ex.tracks ++ ts⟩ r)).Perm
        ((v.tracks ++ flatP r) ++ ts)
      rw [List.append_assoc]
      exact List.Perm.append_left _ (ih ex h)

theorem flatP_mergeStep (U : UModel) (acc : List ((PyStr × Option PyStr) × TrackBlock))
    (b : TrackBlock) : (flatP (mergeStep U acc b)).Perm (flatP acc ++ b.tracks) := by
  cases h : lookupA (blockKey U b) acc with
  | some ex =>
    simp only [mergeStep, h]
    exact flatP_updateA ex.title ex.context b.tracks (blockKey U b) acc ex h
  | none =>
    simp only [mergeStep, h]
    rw [flatP, List.flatMap_append]
    simp [flatP]

theorem flatP_foldl_merge (U : UModel) :
    ∀ (blocks : List TrackBlock) (acc : List ((PyStr × Option PyStr) × TrackBlock)),
      (flatP (blocks.foldl (mergeStep U) acc)).Perm (flatP acc ++ flatTracks blocks) := by
  intro blocks
  induction blocks with
  | nil =>
    intro acc
    simp [flatTracks]
  | cons b bs ih =>
    intro acc
    rw [List.foldl_cons]
    refine (ih (mergeStep U acc b)).trans ?_
    refine ((flatP_mergeStep U acc b).append_right _).trans ?_
    rw [List.append_assoc]
    exact List.Perm.refl _

/-- Multiset preservation of the merge: merging only regroups tracks. -/
theorem flatTracks_merge_perm (U : UModel) (blocks : List TrackBlock) :
    (flatTracks (mergeBlocksByTitle U blocks)).Perm (flatTracks blocks) := by
  have h1 : flatTracks (mergeBlocksByTitle U blocks) =
      flatP (blocks.foldl (mergeStep U) []) := by
    rw [mergeBlocksByTitle, flatTracks, flatP, List.flatMap_map]
  rw [h1]
  simpa using flatP_foldl_merge U blocks []

/-- Invariant of the merge accumulator: entry keys are pairwise distinct
and each entry stores a block whose own merge key is that entry's key. -/
def MergeInv (U : UModel) (acc : List ((PyStr × Option PyStr) × TrackBlock)) : Prop :=
  (acc.map (fun p => p.1)).Pairwise (· ≠ ·) ∧ ∀ p ∈ acc, blockKey U p.2 = p.1

theorem mergeStep_inv (U : UModel) (acc : List ((PyStr × Option PyStr) × TrackBlock))
    (b : TrackBlock) (h : MergeInv U acc) : MergeInv U (mergeStep U acc b) := by
  cases hl : lookupA (blockKey U b) acc with
  | some ex =>
    simp only [mergeStep, hl]
    constructor
    · rw [updateA_keys_of_found _ _ acc (by rw [hl]; simp)]
      exact h.1
    · intro p hp
      rcases mem_updateA _ _ acc p hp with he | hm
      · subst he
        have hexk : blockKey U ex = blockKey U b :=
          h.2 (blockKey U b, ex) (lookupA_some_mem _ acc ex hl)
        show blockKey U ⟨ex.title, ex.context, ex.tracks ++ b.tracks⟩ = blockKey U b
        rw [show blockKey U ⟨ex.title, ex.context, ex.tracks ++ b.tracks⟩ =
          blockKey U ex from rfl, hexk]
      · exact h.2 p hm
  | none =>
    simp only [mergeStep, hl]
    constructor
    · rw [List.map_append, List.pairwise_append]
      refine ⟨h.1, by simp, ?_⟩
      intro a ha c hc
      simp only [List.map_cons, List.map_nil, List.mem_singleton] at hc
      obtain ⟨p, hp, rfl⟩ := List.mem_map.mp ha
      rw [hc]
      exact lookupA_none_keys _ acc hl p hp
    · intro p hp
      rcases List.mem_append.mp hp with hm | hm
      · exact h.2 p hm
      · simp only [List.mem_singleton] at hm
        rw [hm]

theorem foldl_mergeStep_inv (U : UModel) :
    ∀ (blocks : List TrackBlock) (acc : List ((PyStr × Option PyStr) × TrackBlock)),
      MergeInv U acc → MergeInv U (blocks.foldl (mergeStep U) acc) := by
  intro blocks
  induction blocks with
  | nil =>
    intro acc h
    exact h
  | cons b bs ih =>
    intro acc h
    rw [List.foldl_cons]
    exact ih _ (mergeStep_inv U acc b h)

/-- Merged blocks have pairwise distinct merge keys: blocks with equal
(stripped, case-folded) title/context keys were merged. -/
theorem merge_keys_distinct (U : UModel) (blocks : List TrackBlock) :
    ((mergeBlocksByTitle U blocks).map (blockKey U)).Pairwise (· ≠ ·) := by
  have hfin := foldl_mergeStep_inv U blocks [] ⟨List.Pairwise.nil, by simp⟩
  rw [mergeBlocksByTitle, List.map_map]
  have heq : (blocks.foldl (mergeStep U) []).map (blockKey U ∘ fun p => p.2) =
      (blocks.foldl (mergeStep U) []).map (fun p => p.1) :=
    List.map_congr_left (fun p hp => hfin.2 p hp)
  rw [heq]
  exact hfin.1

/-- C10 (confirmed): `_process_url` first merges blocks with equal
(case-insensitively stripped) title/context keys — the merged list has
pairwise distinct keys and carries exactly the same tracks as the input
(as a permutation) — and then deduplicates tracks globally: the surviving
flat track sequence is precisely the first-occurrence filter (in
block-major, track-minor order) of the merged list's tracks, its
(artist, title) keys are pairwise distinct, the relative order of
surviving tracks and of surviving blocks is preserved, and every block
left without tracks is dropped. -/
theorem processBlocks_spec (U : UModel) (blocks : List TrackBlock) :
    ((mergeBlocksByTitle U blocks).map (blockKey U)).Pairwise (· ≠ ·) ∧
    (flatTracks (mergeBlocksByTitle U blocks)).Perm (flatTracks blocks) ∧
    flatTracks (processBlocks U blocks) =
      dedupList U [] (flatTracks (mergeBlocksByTitle U blocks)) ∧
    ((flatTracks (processBlocks U blocks)).map (trackKey U)).Pairwise (· ≠ ·) ∧
    (flatTracks (processBlocks U blocks)).Sublist
      (flatTracks (mergeBlocksByTitle U blocks)) ∧
    ((processBlocks U blocks).map (fun b => (b.title, b.context))).Sublist
      ((mergeBlocksByTitle U blocks).map (fun b => (b.title, b.context))) ∧
    ∀ b ∈ processBlocks U blocks, b.tracks ≠ [] := by
  have hflat : flatTracks (processBlocks U blocks) =
      dedupList U [] (flatTracks (mergeBlocksByTitle U blocks)) :=
    flatTracks_dedupeBlocksAux U (mergeBlocksByTitle U blocks) []
  refine ⟨merge_keys_distinct U blocks, flatTracks_merge_perm U blocks, hflat, ?_, ?_, ?_, ?_⟩
  · rw [hflat]
    exact (dedupList_keys U (flatTracks (mergeBlocksByTitle U blocks)) []).1
  · rw [hflat]
    exact dedupList_sublist U (flatTracks (mergeBlocksByTitle U blocks)) []
  · exact dedupeBlocksAux_pairs_sublist U (mergeBlocksByTitle U blocks) []
  · exact dedupeBlocksAux_nonempty U (mergeBlocksByTitle U blocks) []
